import Mathlib

/-!
# Verification of the Mocktopus instrumentation macros

Shallow embedding of the `mocktopus_macros` crate.  The crate's visible
surface (`macros/src/lib.rs`) contains the two attribute-macro entry points
`mockable` and `not_mockable`; the traversal engine itself lives in the
submodules `item_injector`, `header_builder` and `display_delegate`, which
are declared but whose sources are not part of this tree, so those
components are modelled from the specification (each such definition's doc
comment starts with `Modelled from the spec:`).
-/

namespace Mocktopus

/-- Modelled from the spec: per-node annotation state, one of
`Instrument`, `Suppress`, `None` (§3 "Marker"). -/
inductive Marker where
  | instrument
  | suppress
  | none
deriving DecidableEq, Repr

/-- Modelled from the spec: the three qualifier categories that make a
function ineligible for instrumentation (§3, §4.2): compile-time-evaluable
(`const`), memory-unsafe (`unsafe`), externally-generated (macro-generated). -/
inductive Qualifier where
  | compileTimeEvaluable
  | memoryUnsafe
  | externallyGenerated
deriving DecidableEq, Repr

/-- Modelled from the spec: a statement of a function body.  Original
bodies are built from effects, returns and panics; the `prologue` variant
is the interception fragment produced by the header synthesizer (§4.4):
at call time it looks up the function's identity in the registry, returns
the override's result if one is registered, and otherwise falls through. -/
inductive Stmt where
  | prologue (id : String) (sig : Nat)
  | effect (a : Nat)
  | ret (v : Nat)
  | panic (m : Nat)
deriving DecidableEq, Repr

/-- Modelled from the spec: a function-like declaration (§3 `Function`):
identity, signature, body, qualifier set and its own marker. -/
structure Func where
  identity : String
  signature : Nat
  body : List Stmt
  qualifiers : List Qualifier
  ownMarker : Marker
deriving DecidableEq, Repr

/-- Modelled from the spec: the declaration tree (§3), a closed set of
variants: module, function, impl block, trait definition, and the
catch-all `other` the engine does not reason about. -/
inductive Decl where
  | module (name : String) (m : Marker) (children : List Decl)
  | func (f : Func)
  | implBlock (targetType : String) (traitRef : Option String) (m : Marker) (methods : List Func)
  | traitDef (name : String) (m : Marker) (defaultMethods : List Func)
  | other (content : String)

/-- Modelled from the spec: the Opt-Mark Resolver (§4.1): reads only the
node's own attached marker; absence of a marker is `Marker.none`. -/
def resolve : Decl → Marker
  | .module _ m _ => m
  | .func f => f.ownMarker
  | .implBlock _ _ m _ => m
  | .traitDef _ m _ => m
  | .other _ => .none

/-- Modelled from the spec: the Eligibility Classifier (§4.2), absent from
`src/` (`item_injector`): `is_eligible(function)` is false iff the
function's qualifier set contains compile-time-evaluable, memory-unsafe or
externally-generated. -/
def is_eligible (f : Func) : Bool :=
  !(f.qualifiers.contains .compileTimeEvaluable ||
    f.qualifiers.contains .memoryUnsafe ||
    f.qualifiers.contains .externallyGenerated)

/-- Modelled from the spec: the Header Synthesizer (§4.4), absent from
`src/` (`header_builder`): a pure function of the function's identity and
signature producing the interception prologue fragment. -/
def synthesize (identity : String) (signature : Nat) : Stmt :=
  .prologue identity signature

/-- Modelled from the spec: the Rewriter (§4.5), absent from `src/`:
prepends the synthesized prologue to the function's existing body, leaving
every original statement intact on the fall-through path. -/
def rewriteFn (f : Func) : Func :=
  { f with body := synthesize f.identity f.signature :: f.body }

/-- Modelled from the spec: the Tree Walker's treatment of a single
function node (§4.3 steps 1-4): `Suppress` returns it unchanged; otherwise
`effective = inherited OR (own marker == Instrument)`, and the function is
rewritten iff `effective` holds and the classifier accepts it. -/
def walkFn (inherited : Bool) (f : Func) : Func :=
  if f.ownMarker = .suppress then f
  else if (inherited || (f.ownMarker == .instrument)) && is_eligible f then rewriteFn f
  else f

mutual

/-- Modelled from the spec: the Tree Walker (§4.3), absent from `src/`
(`item_injector`): top-down recursive descent; a `Suppress` own marker is a
hard stop returning the node unchanged with no recursion; otherwise the
effective flag `inherited OR (own marker == Instrument)` is passed to the
children; `other` nodes are returned unchanged with no recursion. -/
def walk (inherited : Bool) : Decl → Decl
  | .module name m children =>
      if m = .suppress then .module name m children
      else .module name m (walkList (inherited || (m == .instrument)) children)
  | .func f => .func (walkFn inherited f)
  | .implBlock t tr m methods =>
      if m = .suppress then .implBlock t tr m methods
      else .implBlock t tr m (methods.map (walkFn (inherited || (m == .instrument))))
  | .traitDef name m methods =>
      if m = .suppress then .traitDef name m methods
      else .traitDef name m (methods.map (walkFn (inherited || (m == .instrument))))
  | .other c => .other c

/-- Modelled from the spec: the Tree Walker's recursion over an ordered
sequence of module children, preserving original order (§4.3). -/
def walkList (inherited : Bool) : List Decl → List Decl
  | [] => []
  | d :: ds => walk inherited d :: walkList inherited ds

end

/-- Modelled from the spec: `item_injector::inject_item`, absent from
`src/`: instruments the annotated root item — attaching the `mockable`
attribute to an item makes the root's effective flag true (§4.3 entry). -/
def inject_item (item : Decl) : Decl :=
  walk true item

/-- A token stream as the engine observes it: either it parses to a
declaration tree, or parsing fails with an error message (the host
parser `syn` is external to the engine). -/
inductive TokenStream where
  | parsed (item : Decl)
  | malformed (err : String)

/-- A warning-level diagnostic, as emitted by `warn!`. -/
inductive Diag where
  | warn (msg : String)
deriving DecidableEq, Repr

/-- The `mockable` attribute macro (`macros/src/lib.rs:100-114`): parse
the input token stream; on failure, log one warning and return the input
unchanged; on success, run `item_injector::inject_item` and print the
rewritten item.  The second component is the list of emitted diagnostics. -/
def mockable (token_stream : TokenStream) : TokenStream × List Diag :=
  match token_stream with
  | .malformed err =>
      (token_stream, [.warn ("Failed to parse token stream: " ++ err)])
  | .parsed item => (.parsed (inject_item item), [])

/-- The `not_mockable` attribute macro (`macros/src/lib.rs:203-206`):
returns its input token stream unchanged. -/
def not_mockable (token_stream : TokenStream) : TokenStream :=
  token_stream

/-! ## Path-indexed observations of a declaration tree

Positions in a tree are addressed by lists of child indices; a path is
consumed through `module` children and ends either at a `func` node or at
one final index selecting a method of an `implBlock` / `traitDef`. -/

/-- The function located at a given path in the tree, if any. -/
def fnAt : Decl → List Nat → Option Func
  | .func f, [] => some f
  | .func _, _ :: _ => Option.none
  | .module _ _ cs, i :: p =>
      match cs[i]? with
      | some c => fnAt c p
      | Option.none => Option.none
  | .module _ _ _, [] => Option.none
  | .implBlock _ _ _ ms, [i] => ms[i]?
  | .implBlock _ _ _ _, [] => Option.none
  | .implBlock _ _ _ _, _ :: _ :: _ => Option.none
  | .traitDef _ _ ms, [i] => ms[i]?
  | .traitDef _ _ _, [] => Option.none
  | .traitDef _ _ _, _ :: _ :: _ => Option.none
  | .other _, _ => Option.none

/-- `pathClear d p` holds when the path `p` leads to a function and no node
on it — the root `d`, the intermediate modules, the enclosing block, or the
function itself — carries the `Suppress` marker. -/
def pathClear : Decl → List Nat → Bool
  | .func f, [] => f.ownMarker != .suppress
  | .func _, _ :: _ => false
  | .module _ m cs, i :: p =>
      m != .suppress &&
        (match cs[i]? with
         | some c => pathClear c p
         | Option.none => false)
  | .module _ _ _, [] => false
  | .implBlock _ _ m ms, [i] =>
      m != .suppress &&
        (match ms[i]? with
         | some f => f.ownMarker != .suppress
         | Option.none => false)
  | .implBlock _ _ _ _, [] => false
  | .implBlock _ _ _ _, _ :: _ :: _ => false
  | .traitDef _ m ms, [i] =>
      m != .suppress &&
        (match ms[i]? with
         | some f => f.ownMarker != .suppress
         | Option.none => false)
  | .traitDef _ _ _, [] => false
  | .traitDef _ _ _, _ :: _ :: _ => false
  | .other _, _ => false

/-- The subtree rooted at a given path (descending through module
children only). -/
def declAt : Decl → List Nat → Option Decl
  | d, [] => some d
  | .module _ _ cs, i :: p =>
      match cs[i]? with
      | some c => declAt c p
      | Option.none => Option.none
  | .func _, _ :: _ => Option.none
  | .implBlock _ _ _ _, _ :: _ => Option.none
  | .traitDef _ _ _, _ :: _ => Option.none
  | .other _, _ :: _ => Option.none

/-- Everything about a declaration node except function bodies: its kind,
names, markers, qualifiers and the number of children it has. -/
inductive NodeInfo where
  | module (name : String) (m : Marker) (nChildren : Nat)
  | funcInfo (identity : String) (signature : Nat) (qualifiers : List Qualifier) (m : Marker)
  | implBlock (targetType : String) (traitRef : Option String) (m : Marker) (methods : List (String × Nat × List Qualifier × Marker))
  | traitDef (name : String) (m : Marker) (methods : List (String × Nat × List Qualifier × Marker))
  | other (content : String)
deriving DecidableEq

/-- The body-erased summary of a method. -/
def methodInfo (f : Func) : String × Nat × List Qualifier × Marker :=
  (f.identity, f.signature, f.qualifiers, f.ownMarker)

/-- The body-erased summary of a declaration node. -/
def info : Decl → NodeInfo
  | .module name m cs => .module name m cs.length
  | .func f => .funcInfo f.identity f.signature f.qualifiers f.ownMarker
  | .implBlock t tr m ms => .implBlock t tr m (ms.map methodInfo)
  | .traitDef n m ms => .traitDef n m (ms.map methodInfo)
  | .other c => .other c

/-! ## Execution semantics of function bodies

Modelled from the spec (§4.4, §4.5): running a body threads a trace of
performed side effects and stops at the first `ret`/`panic`, or at a
`prologue` whose identity has a registered override in the interception
registry. -/

/-- How a single call terminates: with a returned value, with a panic, or
by falling through the end of the body (unit return). -/
inductive Outcome where
  | returned (v : Nat)
  | panicked (m : Nat)
  | fellThrough
deriving DecidableEq, Repr

/-- Modelled from the spec: the external interception registry's lookup
contract (§6): `lookup(identity) -> optional override`. -/
def Registry : Type := String → Option Nat

/-- The observable result of one call: how it terminated and the ordered
trace of side effects it performed. -/
structure ExecResult where
  outcome : Outcome
  trace : List Nat
deriving DecidableEq, Repr

/-- Modelled from the spec: execution of a statement list (§4.4): a
`prologue` looks up its identity in the registry and, if an override is
registered, immediately produces the override's result, executing no
further statement; otherwise it falls through. -/
def execStmts (reg : Registry) : List Stmt → List Nat → ExecResult
  | [], tr => ⟨.fellThrough, tr⟩
  | .prologue id _ :: rest, tr =>
      match reg id with
      | some v => ⟨.returned v, tr⟩
      | Option.none => execStmts reg rest tr
  | .effect a :: rest, tr => execStmts reg rest (tr ++ [a])
  | .ret v :: _, tr => ⟨.returned v, tr⟩
  | .panic m :: _, tr => ⟨.panicked m, tr⟩

/-- Executing one call of a function under a given registry state. -/
def execFn (reg : Registry) (f : Func) : ExecResult :=
  execStmts reg f.body []

/-! ## Helper lemmas about the walker -/

theorem walkList_eq_map (b : Bool) (cs : List Decl) :
    walkList b cs = cs.map (walk b) := by
  induction cs with
  | nil => simp [walkList]
  | cons d ds ih => simp [walkList, ih]

/-- The rewriter changes only the body. -/
theorem methodInfo_rewriteFn (f : Func) : methodInfo (rewriteFn f) = methodInfo f := by
  simp [methodInfo, rewriteFn]

/-- A walked function is either returned unchanged or, when it was
eligible, rewritten. -/
theorem walkFn_cases (b : Bool) (f : Func) :
    walkFn b f = f ∨ (is_eligible f = true ∧ walkFn b f = rewriteFn f) := by
  unfold walkFn
  by_cases hs : f.ownMarker = .suppress
  · exact Or.inl (by simp [hs])
  · by_cases he : ((b || (f.ownMarker == .instrument)) && is_eligible f) = true
    · exact Or.inr ⟨(Bool.and_eq_true _ _ |>.mp he).2, by simp [hs, he]⟩
    · exact Or.inl (by simp [hs, he])

theorem walkFn_of_not_eligible (b : Bool) (f : Func) (h : is_eligible f = false) :
    walkFn b f = f := by
  rcases walkFn_cases b f with hc | ⟨he, _⟩
  · exact hc
  · rw [h] at he; cases he

theorem methodInfo_walkFn (b : Bool) (f : Func) :
    methodInfo (walkFn b f) = methodInfo f := by
  rcases walkFn_cases b f with hc | ⟨_, hc⟩ <;> rw [hc]
  exact methodInfo_rewriteFn f

theorem walkFn_of_suppress (b : Bool) (f : Func) (h : f.ownMarker = .suppress) :
    walkFn b f = f := by
  simp [walkFn, h]

theorem walkFn_eligible_effective (b : Bool) (f : Func)
    (hs : f.ownMarker ≠ .suppress)
    (hb : (b || (f.ownMarker == .instrument)) = true)
    (he : is_eligible f = true) :
    walkFn b f = rewriteFn f := by
  simp [walkFn, hs, hb, he]

/-- Master frame lemma: at every path, the walked tree holds either the
very function the input held, or its rewriting — and then the input
function was eligible. -/
theorem fnAt_walk (p : List Nat) : ∀ (d : Decl) (b : Bool),
    fnAt (walk b d) p = fnAt d p ∨
      ∃ f, fnAt d p = some f ∧ is_eligible f = true ∧
        fnAt (walk b d) p = some (rewriteFn f) := by
  induction p with
  | nil =>
    intro d b
    match d with
    | .func f =>
      rcases walkFn_cases b f with hc | ⟨he, hc⟩
      · exact Or.inl (by simp [walk, fnAt, hc])
      · exact Or.inr ⟨f, by simp [fnAt], he, by simp [walk, fnAt, hc]⟩
    | .module n m cs =>
      by_cases hm : m = .suppress <;> simp [walk, hm, fnAt]
    | .implBlock t tr m ms =>
      by_cases hm : m = .suppress <;> simp [walk, hm, fnAt]
    | .traitDef n m ms =>
      by_cases hm : m = .suppress <;> simp [walk, hm, fnAt]
    | .other c => exact Or.inl (by simp [walk])
  | cons i p ih =>
    intro d b
    match d with
    | .func f =>
      rcases walkFn_cases b f with hc | ⟨he, hc⟩ <;> simp [walk, fnAt]
    | .module n m cs =>
      by_cases hm : m = .suppress
      · simp [walk, hm]
      · simp only [walk, hm, if_false, walkList_eq_map, fnAt, List.getElem?_map]
        match hc : cs[i]? with
        | Option.none => simp
        | some c => exact ih c (b || (m == .instrument))
    | .implBlock t tr m ms =>
      by_cases hm : m = .suppress
      · simp [walk, hm]
      · match p with
        | [] =>
          simp only [walk, hm, if_false, fnAt, List.getElem?_map]
          match hc : ms[i]? with
          | Option.none => simp
          | some f =>
            rcases walkFn_cases (b || (m == .instrument)) f with hw | ⟨he, hw⟩
            · exact Or.inl (by simp [hw])
            · exact Or.inr ⟨f, rfl, he, by simp [hw]⟩
        | _ :: _ => simp [walk, hm, fnAt]
    | .traitDef n m ms =>
      by_cases hm : m = .suppress
      · simp [walk, hm]
      · match p with
        | [] =>
          simp only [walk, hm, if_false, fnAt, List.getElem?_map]
          match hc : ms[i]? with
          | Option.none => simp
          | some f =>
            rcases walkFn_cases (b || (m == .instrument)) f with hw | ⟨he, hw⟩
            · exact Or.inl (by simp [hw])
            · exact Or.inr ⟨f, rfl, he, by simp [hw]⟩
        | _ :: _ => simp [walk, hm, fnAt]
    | .other c => exact Or.inl (by simp [walk])

/-- Propagation lemma: when the flag is effectively set at the root and no
`Suppress` marker sits on the path to an eligible function, the walker
rewrites that function. -/
theorem fnAt_walk_instrument (p : List Nat) : ∀ (d : Decl) (b : Bool) (f : Func),
    fnAt d p = some f → pathClear d p = true →
    (b || (resolve d == .instrument)) = true → is_eligible f = true →
    fnAt (walk b d) p = some (rewriteFn f) := by
  induction p with
  | nil =>
    intro d b f hat hclear hflag helig
    match d with
    | .func g =>
      simp only [fnAt, Option.some.injEq] at hat
      subst hat
      simp only [pathClear, bne_iff_ne, ne_eq] at hclear
      rw [resolve] at hflag
      simp only [walk, fnAt, Option.some.injEq]
      exact walkFn_eligible_effective b g hclear hflag helig
    | .module n m cs => simp [fnAt] at hat
    | .implBlock t tr m ms => simp [fnAt] at hat
    | .traitDef n m ms => simp [fnAt] at hat
    | .other c => simp [fnAt] at hat
  | cons i p ih =>
    intro d b f hat hclear hflag helig
    match d with
    | .func g => simp [fnAt] at hat
    | .module n m cs =>
      simp only [pathClear, Bool.and_eq_true, bne_iff_ne, ne_eq, decide_eq_true_eq] at hclear
      obtain ⟨hm, hrest⟩ := hclear
      rw [resolve] at hflag
      simp only [fnAt] at hat
      simp only [walk, hm, if_false, walkList_eq_map, fnAt, List.getElem?_map]
      match hc : cs[i]? with
      | Option.none => rw [hc] at hat; cases hat
      | some c =>
        rw [hc] at hat hrest
        have : ((b || (m == .instrument)) || (resolve c == .instrument)) = true := by
          rw [hflag]; simp
        exact ih c (b || (m == .instrument)) f hat hrest this helig
    | .implBlock t tr m ms =>
      match p with
      | [] =>
        simp only [pathClear, Bool.and_eq_true, bne_iff_ne, ne_eq, decide_eq_true_eq] at hclear
        obtain ⟨hm, hrest⟩ := hclear
        rw [resolve] at hflag
        simp only [fnAt] at hat
        simp only [walk, hm, if_false, fnAt, List.getElem?_map]
        rw [hat] at hrest ⊢
        have hrest' : f.ownMarker ≠ Marker.suppress := by
          simpa using hrest
        have heff : ((b || (m == Marker.instrument)) || (f.ownMarker == Marker.instrument)) = true := by
          rw [hflag]; simp
        simp only [Option.map_some', Option.some.injEq]
        exact walkFn_eligible_effective _ f hrest' heff helig
      | _ :: _ => simp [fnAt] at hat
    | .traitDef n m ms =>
      match p with
      | [] =>
        simp only [pathClear, Bool.and_eq_true, bne_iff_ne, ne_eq, decide_eq_true_eq] at hclear
        obtain ⟨hm, hrest⟩ := hclear
        rw [resolve] at hflag
        simp only [fnAt] at hat
        simp only [walk, hm, if_false, fnAt, List.getElem?_map]
        rw [hat] at hrest ⊢
        have hrest' : f.ownMarker ≠ Marker.suppress := by
          simpa using hrest
        have heff : ((b || (m == Marker.instrument)) || (f.ownMarker == Marker.instrument)) = true := by
          rw [hflag]; simp
        simp only [Option.map_some', Option.some.injEq]
        exact walkFn_eligible_effective _ f hrest' heff helig
      | _ :: _ => simp [fnAt] at hat
    | .other c => simp [fnAt] at hat

/-- Walking never changes a node's body-erased summary. -/
theorem info_walk (b : Bool) (d : Decl) : info (walk b d) = info d := by
  match d with
  | .func f =>
    rcases walkFn_cases b f with hc | ⟨_, hc⟩
    · simp [walk, hc]
    · simp [walk, hc, info, rewriteFn]
  | .module n m cs =>
    by_cases hm : m = .suppress
    · simp [walk, hm]
    · simp [walk, hm, info, walkList_eq_map]
  | .implBlock t tr m ms =>
    by_cases hm : m = .suppress
    · simp [walk, hm]
    · simp only [walk, hm, if_false, info, List.map_map]
      exact congrArg _ (List.map_congr_left fun f _ => methodInfo_walkFn _ f)
  | .traitDef n m ms =>
    by_cases hm : m = .suppress
    · simp [walk, hm]
    · simp only [walk, hm, if_false, info, List.map_map]
      exact congrArg _ (List.map_congr_left fun f _ => methodInfo_walkFn _ f)
  | .other c => simp [walk]

/-- Shape lemma: at every path, walking preserves everything about the
node except function bodies. -/
theorem declAt_walk_info (p : List Nat) : ∀ (d : Decl) (b : Bool),
    (declAt (walk b d) p).map info = (declAt d p).map info := by
  induction p with
  | nil =>
    intro d b
    simp [declAt, info_walk]
  | cons i p ih =>
    intro d b
    match d with
    | .func f => simp [walk, declAt]
    | .module n m cs =>
      by_cases hm : m = .suppress
      · simp [walk, hm]
      · simp only [walk, hm, if_false, walkList_eq_map, declAt, List.getElem?_map]
        match hc : cs[i]? with
        | Option.none => simp
        | some c => exact ih c (b || (m == .instrument))
    | .implBlock t tr m ms =>
      by_cases hm : m = .suppress <;> simp [walk, hm, declAt]
    | .traitDef n m ms =>
      by_cases hm : m = .suppress <;> simp [walk, hm, declAt]
    | .other c => simp [walk, declAt]

/-! ## Sample objects used by the closed witnesses -/

/-- A plain eligible function with no marker and no qualifiers. -/
def gEx : Func := ⟨"g", 0, [.effect 1], [], .none⟩

/-- An eligible function used for the suppressed-module sample. -/
def fEx : Func := ⟨"f", 0, [.effect 2], [], .none⟩

/-- A variant of `fEx` with the same identity and signature but a
different body, qualifiers and marker. -/
def fEx2 : Func := ⟨"f", 0, [.ret 3], [.memoryUnsafe], .instrument⟩

/-- A memory-unsafe (hence ineligible) method. -/
def badFn : Func := ⟨"bad", 0, [.ret 7], [.memoryUnsafe], .none⟩

/-- A module carrying `Suppress` that contains an eligible function. -/
def suppressedMod : Decl := .module "m" .suppress [.func fEx]

/-- A registry with no override registered. -/
def regNone : Registry := fun _ => Option.none

/-- A registry with an override of value `42` registered for `"g"`. -/
def regG : Registry := fun s => if s = "g" then some 42 else Option.none

/-! ## The claims -/

/-- C1: `Suppress` is an absolute subtree cut: whatever the inherited flag
(`b = true` models an ancestor carrying `Instrument`), a node whose own
marker resolves to `Suppress` is returned by the traversal completely
unchanged — so no function anywhere in its subtree is rewritten. -/
theorem suppress_is_absolute (b : Bool) (d : Decl)
    (h : resolve d = .suppress) : walk b d = d := by
  match d with
  | .module n m cs => rw [resolve] at h; simp [walk, h]
  | .func f => rw [resolve] at h; simp [walk, walkFn_of_suppress b f h]
  | .implBlock t tr m ms => rw [resolve] at h; simp [walk, h]
  | .traitDef n m ms => rw [resolve] at h; simp [walk, h]
  | .other c => simp [walk]

/-- Witness for C1: a suppressed module containing an eligible function,
walked under an instrumenting ancestor, comes back unchanged. -/
theorem suppress_is_absolute_witness : walk true suppressedMod = suppressedMod :=
  suppress_is_absolute true suppressedMod rfl

/-- C2: `Instrument` propagates downward: in a tree rooted at a module
carrying `Instrument`, any eligible function reachable along a path free
of `Suppress` markers is rewritten by the traversal. -/
theorem instrument_propagates (b : Bool) (name : String) (cs : List Decl)
    (p : List Nat) (f : Func)
    (hat : fnAt (.module name .instrument cs) p = some f)
    (hclear : pathClear (.module name .instrument cs) p = true)
    (helig : is_eligible f = true) :
    fnAt (walk b (.module name .instrument cs)) p = some (rewriteFn f) :=
  fnAt_walk_instrument p _ b f hat hclear (by simp [resolve]) helig

/-- Witness for C2: the eligible function inside a concrete instrumented
module is rewritten. -/
theorem instrument_propagates_witness :
    fnAt (walk false (.module "M" .instrument [.func gEx])) [0] =
      some (rewriteFn gEx) :=
  instrument_propagates false "M" [.func gEx] [0] gEx (by decide) (by decide)
    (by decide)

/-- C3: fail-open on unparseable input: `mockable`
(`macros/src/lib.rs:100-114`) returns a stream that fails to parse exactly
as it was, performs no rewriting, and emits exactly one warning-level
diagnostic describing the parse error. -/
theorem fail_open (err : String) :
    mockable (.malformed err) =
      (.malformed err, [.warn ("Failed to parse token stream: " ++ err)]) :=
  rfl

/-- C4: eligibility gates rewriting: a function whose qualifier set
contains a compile-time-evaluable, memory-unsafe or externally-generated
qualifier is classified ineligible, and wherever it sits in the tree it is
never rewritten, whatever markers are in effect. -/
theorem eligibility_gates_rewriting (f : Func) (b : Bool) (d : Decl)
    (p : List Nat)
    (hq : f.qualifiers.contains .compileTimeEvaluable = true ∨
          f.qualifiers.contains .memoryUnsafe = true ∨
          f.qualifiers.contains .externallyGenerated = true)
    (hat : fnAt d p = some f) :
    is_eligible f = false ∧ fnAt (walk b d) p = some f := by
  have helig : is_eligible f = false := by
    rcases hq with h | h | h <;>
      · rw [List.contains_eq_any_beq, List.any_eq_true] at h
        obtain ⟨q, hq1, hq2⟩ := h
        rw [beq_iff_eq] at hq2
        subst hq2
        simp [is_eligible, hq1]
  refine ⟨helig, ?_⟩
  rcases fnAt_walk p d b with hc | ⟨g, hg, hge, _⟩
  · rw [hc]; exact hat
  · rw [hg] at hat
    injection hat with h
    rw [h] at hge
    rw [hge] at helig
    cases helig

/-- Witness for C4: a memory-unsafe method inside an instrumented impl
block is left unchanged. -/
theorem eligibility_gates_rewriting_witness :
    is_eligible badFn = false ∧
      fnAt (walk true (.implBlock "S" Option.none .instrument [badFn])) [0] =
        some badFn :=
  eligibility_gates_rewriting badFn true
    (.implBlock "S" Option.none .instrument [badFn]) [0]
    (Or.inr (Or.inl (by decide))) (by decide)

/-- C5: the effective flag is `inherited OR (own marker == Instrument)` at
every non-`Suppress` node; a function node is rewritten iff that flag and
the classifier both hold, and otherwise returned unchanged; a standalone
unmarked function in an uninstrumented context is unchanged. -/
theorem effective_flag_dispatch (b : Bool) (f : Func) (n : String) (m : Marker) :
    (f.ownMarker ≠ .suppress →
      walk b (.func f) =
        .func (if (b || (f.ownMarker == .instrument)) && is_eligible f
               then rewriteFn f else f)) ∧
    (∀ cs, m ≠ .suppress →
      walk b (.module n m cs) =
        .module n m (cs.map (walk (b || (m == .instrument))))) ∧
    (f.ownMarker = .none → walk false (.func f) = .func f) := by
  refine ⟨fun hs => ?_, fun cs hm => ?_, fun h0 => ?_⟩
  · simp [walk, walkFn, hs]
  · simp [walk, hm, walkList_eq_map]
  · simp [walk, walkFn, h0]

/-- Witness for C5: the function equation at an instrumented context, the
module equation, and scenario D for a concrete unmarked function. -/
theorem effective_flag_dispatch_witness :
    (walk true (.func gEx) =
      .func (if (true || (gEx.ownMarker == .instrument)) && is_eligible gEx
             then rewriteFn gEx else gEx)) ∧
    (walk true (.module "M" Marker.none [.other "x"]) =
      .module "M" Marker.none
        ([Decl.other "x"].map (walk (true || (Marker.none == Marker.instrument))))) ∧
    walk false (.func gEx) = .func gEx :=
  ⟨(effective_flag_dispatch true gEx "M" Marker.none).1 (by decide),
   (effective_flag_dispatch true gEx "M" Marker.none).2.1 [.other "x"] (by decide),
   (effective_flag_dispatch false gEx "M" Marker.none).2.2 rfl⟩

/-- C6: structural frame condition: the output tree has the same shape as
the input — at every path the body-erased node summary (kind, names,
markers, qualifiers, child count and ordering) is unchanged; every
function in the output is either the input's function at that position or
its rewriting (the synthesized prologue prepended to the intact original
body); and `other` nodes are returned unchanged with no recursion. -/
theorem structural_frame (b : Bool) (d : Decl) :
    (∀ p, (declAt (walk b d) p).map info = (declAt d p).map info) ∧
    (∀ p f', fnAt (walk b d) p = some f' →
      ∃ f, fnAt d p = some f ∧ (f' = f ∨ f' = rewriteFn f)) ∧
    (∀ c, walk b (.other c) = .other c) := by
  refine ⟨fun p => declAt_walk_info p d b, fun p f' h => ?_, fun c => by simp [walk]⟩
  rcases fnAt_walk p d b with hc | ⟨f, hf, _, hw⟩
  · rw [hc] at h
    exact ⟨f', h, Or.inl rfl⟩
  · rw [hw] at h
    injection h with h
    exact ⟨f, hf, Or.inr h.symm⟩

/-- Witness for C6: in a concrete instrumented module, the function found
in the output at path `[0]` is the original-or-rewritten input function. -/
theorem structural_frame_witness :
    ∃ f, fnAt (.module "M" .instrument [.func gEx]) [0] = some f ∧
      (rewriteFn gEx = f ∨ rewriteFn gEx = rewriteFn f) :=
  (structural_frame true (.module "M" .instrument [.func gEx])).2.1 [0]
    (rewriteFn gEx) (by decide)

/-- C7: pass-through equivalence: executing a rewritten function with no
override registered for its identity produces the very same observable
result (outcome and side-effect trace) as the original; with an override
registered, the call returns the override's value and executes no
statement of the original body (empty trace). -/
theorem pass_through_equivalence (f : Func) (reg : Registry) :
    (reg f.identity = Option.none → execFn reg (rewriteFn f) = execFn reg f) ∧
    (∀ v, reg f.identity = some v →
      execFn reg (rewriteFn f) = ⟨.returned v, []⟩) := by
  constructor
  · intro h
    simp [execFn, rewriteFn, synthesize, execStmts, h]
  · intro v h
    simp [execFn, rewriteFn, synthesize, execStmts, h]

/-- Witness for C7: concrete runs with an empty registry and with an
override registered for `"g"`. -/
theorem pass_through_equivalence_witness :
    execFn regNone (rewriteFn gEx) = execFn regNone gEx ∧
      execFn regG (rewriteFn gEx) = ⟨.returned 42, []⟩ :=
  ⟨(pass_through_equivalence gEx regNone).1 rfl,
   (pass_through_equivalence gEx regG).2 42 (by decide)⟩

/-- C8: the engine is deterministic and, apart from the parse-failure
diagnostic, emits nothing: equal input token streams give equal outputs,
a successful run emits no diagnostic, and the synthesized prologue is a
function of the function's identity and signature alone. -/
theorem engine_deterministic :
    (∀ ts₁ ts₂ : TokenStream, ts₁ = ts₂ → mockable ts₁ = mockable ts₂) ∧
    (∀ item : Decl, (mockable (.parsed item)).2 = []) ∧
    (∀ f g : Func, f.identity = g.identity → f.signature = g.signature →
      (rewriteFn f).body.head? = (rewriteFn g).body.head?) := by
  refine ⟨fun a b h => by rw [h], fun item => rfl, fun f g h1 h2 => ?_⟩
  simp [rewriteFn, synthesize, h1, h2]

/-- Witness for C8: concrete equal runs, an empty diagnostic list on a
concrete success, and equal prologues for two functions sharing identity
and signature but nothing else. -/
theorem engine_deterministic_witness :
    mockable (.parsed (.func fEx)) = mockable (.parsed (.func fEx)) ∧
      (mockable (.parsed (.func fEx))).2 = [] ∧
      (rewriteFn fEx).body.head? = (rewriteFn fEx2).body.head? :=
  ⟨engine_deterministic.1 (.parsed (.func fEx)) (.parsed (.func fEx)) rfl,
   engine_deterministic.2.1 (.func fEx),
   engine_deterministic.2.2 fEx fEx2 rfl rfl⟩

/-- C9: the `not_mockable` attribute macro is the identity on its input
token stream: suppression acts only through the enclosing traversal
reading the marker, never through this macro transforming anything. -/
theorem not_mockable_identity (ts : TokenStream) : not_mockable ts = ts :=
  rfl

/-- Counterexample to C10 as stated: applying `mockable` a second time to
the already-instrumented item does not leave it unchanged — it prepends a
second interception prologue, so the output token stream differs. -/
theorem remock_duplicates_prologue :
    (mockable (mockable (.parsed (.func gEx))).1).1 ≠
      (mockable (.parsed (.func gEx))).1 := by
  have h1 : (mockable (.parsed (.func gEx))).1 = .parsed (.func (rewriteFn gEx)) := by
    show TokenStream.parsed (inject_item (.func gEx)) = _
    rw [inject_item]
    rfl
  have h2 : (mockable (mockable (.parsed (.func gEx))).1).1 =
      .parsed (.func (rewriteFn (rewriteFn gEx))) := by
    rw [h1]
    show TokenStream.parsed (inject_item (.func (rewriteFn gEx))) = _
    rw [inject_item]
    rfl
  intro h
  rw [h2] at h
  rw [h1] at h
  injection h with h
  injection h with h
  have hlen := congrArg (fun f => f.body.length) h
  simp [rewriteFn] at hlen

/-- C10 amended: re-instrumenting duplicates the prologue syntactically,
but the doubly-rewritten function's observable behavior is identical to
the singly-rewritten one under every registry state — re-annotation is
behaviorally indifferent and never intercepts twice. -/
theorem remock_behaviorally_idempotent (f : Func) (reg : Registry) :
    execFn reg (rewriteFn (rewriteFn f)) = execFn reg (rewriteFn f) := by
  match h : reg f.identity with
  | some v => simp [execFn, rewriteFn, synthesize, execStmts, h]
  | Option.none => simp [execFn, rewriteFn, synthesize, execStmts, h]

end Mocktopus
